import Mathlib

/-!
Verification of the Dynamic Context Pruning plugin (opencode-dynamic-context-pruning).

This file gives a shallow embedding of the core data model and operations of
the plugin and proves (or refutes) the frozen specification claims about it:

* the outbound Request Rewriter (the `chat.params` fetch wrapper in
  `src/index.ts` and the `globalThis.fetch` wrapper variant),
* the Analysis Orchestrator `Janitor.run` (`src/lib/synth-instruction.ts`):
  transcript collection, batch grouping, protected-tool filtering, batch
  expansion, merge and persist,
* the Prune State Store mutation discipline,
* the Squash handler (`findStringInMessages` / `createSquashTool`),
* the Message Format Adapters (`injectSynth`, `geminiAdapter.countToolResults`),
* the subagent check `isSubagentSession`.

JavaScript strings are modelled by Lean `String`; JS `Array` by `List`;
JS `Set`/`Map` by lists with insertion-order dedup / association lists;
`async` failure of an external call by an `Except` value supplied as input.
-/

/-- Models `Char` lowering as performed by JS `String.prototype.toLowerCase`
on the ASCII range: code points 65–90 (`A`–`Z`) are shifted by 32, all other
characters are unchanged. Call-ids in this system are ASCII tokens. -/
def lowerChar (c : Char) : Char :=
  if 65 ≤ c.toNat ∧ c.toNat ≤ 90 then Char.ofNat (c.toNat + 32) else c

/-- Models `id.toLowerCase()`, the call-id normalization used throughout the
plugin (`part.callID.toLowerCase()`, `prunedId.toLowerCase()`, ...). -/
def normalizeId (s : String) : String :=
  String.mk (s.data.map lowerChar)

/-- Models JS `s.includes(sub)`: substring containment. -/
def jsIncludes (s sub : String) : Bool :=
  decide (sub.data <:+: s.data)

/-- Models `[...new Set(l)]`: deduplication keeping the first occurrence of
each element, in insertion order. `seen` accumulates elements already kept. -/
def jsDedupAux (seen : List String) : List String → List String
  | [] => []
  | x :: xs =>
    if seen.contains x then jsDedupAux seen xs
    else x :: jsDedupAux (x :: seen) xs

/-- Models `[...new Set(l)]` on a JS array of strings. -/
def jsDedup (l : List String) : List String :=
  jsDedupAux [] l

/-- Models `set.add(x)` on a JS `Set` represented as an insertion-ordered
duplicate-free list. -/
def setAdd (l : List String) (x : String) : List String :=
  if l.contains x then l else l ++ [x]

theorem mem_jsDedupAux {x : String} {seen l : List String} :
    x ∈ jsDedupAux seen l ↔ x ∈ l ∧ x ∉ seen := by
  induction l generalizing seen with
  | nil => simp [jsDedupAux]
  | cons y ys ih =>
    by_cases hy : y ∈ seen
    · rw [jsDedupAux, if_pos (List.elem_iff.mpr hy), ih]
      constructor
      · rintro ⟨hx, hns⟩
        exact ⟨List.mem_cons_of_mem _ hx, hns⟩
      · rintro ⟨hx, hns⟩
        rcases List.mem_cons.mp hx with rfl | hx
        · exact absurd hy hns
        · exact ⟨hx, hns⟩
    · rw [jsDedupAux, if_neg (fun hc => hy (List.elem_iff.mp hc))]
      constructor
      · intro hx
        rcases List.mem_cons.mp hx with rfl | hx
        · exact ⟨List.mem_cons_self _ _, hy⟩
        · obtain ⟨h1, h2⟩ := ih.mp hx
          exact ⟨List.mem_cons_of_mem _ h1,
            fun hs => h2 (List.mem_cons_of_mem _ hs)⟩
      · rintro ⟨hx, hns⟩
        rcases List.mem_cons.mp hx with rfl | hx
        · exact List.mem_cons_self _ _
        · by_cases hxy : x = y
          · subst hxy
            exact List.mem_cons_self _ _
          · exact List.mem_cons_of_mem _ (ih.mpr ⟨hx,
              fun hs => (List.mem_cons.mp hs).elim hxy hns⟩)

theorem mem_jsDedup {x : String} {l : List String} :
    x ∈ jsDedup l ↔ x ∈ l := by
  simp [jsDedup, mem_jsDedupAux]

theorem mem_setAdd {x y : String} {l : List String} :
    x ∈ setAdd l y ↔ x ∈ l ∨ x = y := by
  unfold setAdd
  by_cases h : y ∈ l
  · rw [if_pos (List.elem_iff.mpr h)]
    exact ⟨Or.inl, fun hx => hx.elim id (fun hxy => hxy ▸ h)⟩
  · rw [if_neg (fun hc => h (List.elem_iff.mp hc))]
    simp [List.mem_append]

theorem lowerChar_idem (c : Char) : lowerChar (lowerChar c) = lowerChar c := by
  unfold lowerChar
  by_cases h : 65 ≤ c.toNat ∧ c.toNat ≤ 90
  · rw [if_pos h]
    have hv : (c.toNat + 32).isValidChar := Or.inl (by omega)
    have htn : (Char.ofNat (c.toNat + 32)).toNat = c.toNat + 32 := by
      rw [Char.ofNat, dif_pos hv]
      simp [Char.ofNatAux, Char.toNat, UInt32.toNat, BitVec.toNat_ofNatLt]
    rw [if_neg (by omega : ¬(65 ≤ (Char.ofNat (c.toNat + 32)).toNat ∧
        (Char.ofNat (c.toNat + 32)).toNat ≤ 90))]
  · rw [if_neg h, if_neg h]

theorem normalizeId_idem (s : String) :
    normalizeId (normalizeId s) = normalizeId s := by
  cases s with
  | mk data =>
    unfold normalizeId
    simp only [List.map_map]
    congr 1
    exact List.map_congr_left (fun c _ => lowerChar_idem c)

/-! ## Request Rewriter (src/index.ts chat.params wrapper, and the
globalThis.fetch wrapper variant) -/

/-- The fixed placeholder substituted for pruned tool outputs. -/
def PRUNE_PLACEHOLDER : String :=
  "[Output removed to save context - information superseded or no longer needed]"

/-- One entry of an outbound chat-completions request body. `rest` stands for
all the JSON fields other than `role`, `tool_call_id` and `content`, which the
rewriters never touch. -/
structure ChatMsg where
  role : String
  tool_call_id : Option String
  content : String
  rest : List (String × String)
deriving DecidableEq, Repr

/-- Condition under which the `chat.params` fetch wrapper replaces an entry:
`m.role === 'tool' && prunedIds.includes(m.tool_call_id)` — the raw id is
compared verbatim against the stored pruned ids. -/
def chatPruned (pruned : List String) (m : ChatMsg) : Bool :=
  m.role == "tool" &&
    (match m.tool_call_id with
     | some id => pruned.contains id
     | none => false)

/-- The per-entry rewrite of the `chat.params` wrapper: a spread copy with
`content` replaced by the placeholder when the entry is pruned. -/
def chatRewriteOne (pruned : List String) (m : ChatMsg) : ChatMsg :=
  if chatPruned pruned m then { m with content := PRUNE_PLACEHOLDER } else m

/-- The `chat.params` fetch wrapper body rewrite: filtering is attempted only
when there are pruned ids (`prunedIds.length > 0`), and maps every message
through the per-entry rewrite. -/
def rewriteChat (pruned : List String) (msgs : List ChatMsg) : List ChatMsg :=
  if 0 < pruned.length then msgs.map (chatRewriteOne pruned) else msgs

/-- Condition under which the `globalThis.fetch` wrapper replaces an entry:
`m.role === 'tool' && allPrunedIds.has(m.tool_call_id?.toLowerCase())` — the
id is lowercased before the lookup. -/
def globalPruned (pruned : List String) (m : ChatMsg) : Bool :=
  m.role == "tool" &&
    (match m.tool_call_id with
     | some id => pruned.contains (normalizeId id)
     | none => false)

/-- The per-entry rewrite of the `globalThis.fetch` wrapper. -/
def globalRewriteOne (pruned : List String) (m : ChatMsg) : ChatMsg :=
  if globalPruned pruned m then { m with content := PRUNE_PLACEHOLDER } else m

/-- The `globalThis.fetch` wrapper body rewrite: replacement runs only when
the body has tool messages and the pruned-id union is non-empty. -/
def rewriteGlobal (pruned : List String) (msgs : List ChatMsg) : List ChatMsg :=
  if 0 < (msgs.filter (fun m => m.role == "tool")).length ∧ 0 < pruned.length
  then msgs.map (globalRewriteOne pruned)
  else msgs

theorem chatPruned_nil (m : ChatMsg) : chatPruned [] m = false := by
  obtain ⟨r, tc, c, rs⟩ := m
  cases tc <;> simp [chatPruned, List.contains, List.elem]

theorem rewriteChat_getElem? (pruned : List String) (msgs : List ChatMsg)
    (i : Nat) : (rewriteChat pruned msgs)[i]? =
      (msgs[i]?).map (chatRewriteOne pruned) := by
  unfold rewriteChat
  by_cases h : 0 < pruned.length
  · rw [if_pos h, List.getElem?_map]
  · rw [if_neg h]
    have hp : pruned = [] := List.length_eq_zero.mp (by omega)
    subst hp
    cases hm : msgs[i]? with
    | none => simp
    | some m => simp [chatRewriteOne, chatPruned_nil]

theorem rewriteGlobal_getElem? (pruned : List String) (msgs : List ChatMsg)
    (i : Nat) : (rewriteGlobal pruned msgs)[i]? =
      (msgs[i]?).map (globalRewriteOne pruned) := by
  unfold rewriteGlobal
  by_cases h : 0 < (msgs.filter (fun m => m.role == "tool")).length ∧
      0 < pruned.length
  · rw [if_pos h, List.getElem?_map]
  · rw [if_neg h]
    cases hm : msgs[i]? with
    | none => simp
    | some m =>
      rw [Option.map_some']
      suffices hs : globalRewriteOne pruned m = m by rw [hs]
      unfold globalRewriteOne
      rw [if_neg ?_]
      intro hgp
      apply h
      unfold globalPruned at hgp
      obtain ⟨hrole, hid⟩ := Bool.and_eq_true _ _ |>.mp hgp
      constructor
      · have hmem : m ∈ msgs := List.getElem?_mem hm
        have hmf : m ∈ msgs.filter (fun m => m.role == "tool") :=
          List.mem_filter.mpr ⟨hmem, hrole⟩
        exact List.length_pos.mpr (List.ne_nil_of_mem hmf)
      · cases hcid : m.tool_call_id with
        | none =>
          rw [hcid] at hid
          exact absurd hid (by simp)
        | some id =>
          rw [hcid] at hid
          exact List.length_pos.mpr
            (List.ne_nil_of_mem (List.elem_iff.mp hid))

/-- C1. For every outbound request body, the rewritten body has exactly as
many entries as the original, in the same positions: an entry satisfying the
rewriter's pruned condition is replaced by a copy whose `content` is the fixed
placeholder and whose every other field is unchanged; every other entry is
returned unchanged; no entry is deleted.  Stated for both the per-session
`chat.params` wrapper and the global fetch wrapper. -/
theorem C1_rewrite_preserves_entries (pruned : List String)
    (msgs : List ChatMsg) :
    (rewriteChat pruned msgs).length = msgs.length ∧
    (rewriteGlobal pruned msgs).length = msgs.length ∧
    (∀ (i : Nat) (m : ChatMsg), msgs[i]? = some m →
      (chatPruned pruned m = true →
        (rewriteChat pruned msgs)[i]? =
          some { m with content := PRUNE_PLACEHOLDER }) ∧
      (chatPruned pruned m = false →
        (rewriteChat pruned msgs)[i]? = some m) ∧
      (globalPruned pruned m = true →
        (rewriteGlobal pruned msgs)[i]? =
          some { m with content := PRUNE_PLACEHOLDER }) ∧
      (globalPruned pruned m = false →
        (rewriteGlobal pruned msgs)[i]? = some m)) := by
  refine ⟨?_, ?_, ?_⟩
  · unfold rewriteChat
    split <;> simp
  · unfold rewriteGlobal
    split <;> simp
  · intro i m hm
    refine ⟨?_, ?_, ?_, ?_⟩
    · intro hc
      rw [rewriteChat_getElem?, hm, Option.map_some']
      simp [chatRewriteOne, hc]
    · intro hc
      rw [rewriteChat_getElem?, hm, Option.map_some']
      simp [chatRewriteOne, hc]
    · intro hc
      rw [rewriteGlobal_getElem?, hm, Option.map_some']
      simp [globalRewriteOne, hc]
    · intro hc
      rw [rewriteGlobal_getElem?, hm, Option.map_some']
      simp [globalRewriteOne, hc]

/-- Concrete instantiation of `C1_rewrite_preserves_entries`: a two-entry body
with one pruned tool result and one untouched tool result. -/
theorem C1_rewrite_preserves_entries_witness :
    (rewriteChat ["a"] [⟨"tool", some "a", "big output", []⟩,
        ⟨"tool", some "b", "other output", []⟩])[0]? =
      some ⟨"tool", some "a", PRUNE_PLACEHOLDER, []⟩ ∧
    (rewriteChat ["a"] [⟨"tool", some "a", "big output", []⟩,
        ⟨"tool", some "b", "other output", []⟩])[1]? =
      some ⟨"tool", some "b", "other output", []⟩ := by
  constructor
  · exact ((C1_rewrite_preserves_entries ["a"]
      [⟨"tool", some "a", "big output", []⟩,
       ⟨"tool", some "b", "other output", []⟩]).2.2 0
      ⟨"tool", some "a", "big output", []⟩ rfl).1 (by decide)
  · exact ((C1_rewrite_preserves_entries ["a"]
      [⟨"tool", some "a", "big output", []⟩,
       ⟨"tool", some "b", "other output", []⟩]).2.2 1
      ⟨"tool", some "b", "other output", []⟩ rfl).2.1 (by decide)

/-- C5 counterexample. The claim "ids differing only by case compare equal in
every comparison the system performs" fails for the `chat.params` rewriter: it
compares the entry's raw `tool_call_id` verbatim against the stored pruned
ids.  Here the entry id `ABC` differs only by case from the pruned id `abc`
(`normalizeId "ABC" = "abc"` is in the pruned set), yet the rewriter leaves
the entry unchanged rather than replacing its content with the placeholder. -/
theorem C5_case_insensitive_counterexample :
    normalizeId "ABC" = "abc" ∧
    (["abc"] : List String).contains (normalizeId "ABC") = true ∧
    rewriteChat ["abc"] [⟨"tool", some "ABC", "raw output", []⟩] =
      [⟨"tool", some "ABC", "raw output", []⟩] ∧
    "raw output" ≠ PRUNE_PLACEHOLDER := by
  refine ⟨by decide, by decide, ?_, by decide⟩
  decide

/-- C5 (amended). Call-id normalization is idempotent; the global fetch
wrapper matches tool-result entries case-insensitively (it looks up the
lowercased id), but the per-session `chat.params` wrapper compares raw ids
verbatim, so only an exact match is treated as pruned there. -/
theorem C5_normalization_amended :
    (∀ s : String, normalizeId (normalizeId s) = normalizeId s) ∧
    (∀ (pruned : List String) (m : ChatMsg) (id : String),
      m.tool_call_id = some id →
      (globalPruned pruned m = true ↔
        m.role = "tool" ∧ pruned.contains (normalizeId id) = true)) ∧
    (∀ (pruned : List String) (m : ChatMsg) (id : String),
      m.tool_call_id = some id →
      (chatPruned pruned m = true ↔
        m.role = "tool" ∧ pruned.contains id = true)) := by
  refine ⟨normalizeId_idem, ?_, ?_⟩
  · intro pruned m id hid
    unfold globalPruned
    rw [hid]
    simp [Bool.and_eq_true, beq_iff_eq]
  · intro pruned m id hid
    unfold chatPruned
    rw [hid]
    simp [Bool.and_eq_true, beq_iff_eq]

/-- Concrete instantiation of `C5_normalization_amended`: the global wrapper
treats `ABC` as pruned when `abc` is stored; the chat.params wrapper does not. -/
theorem C5_normalization_amended_witness :
    globalPruned ["abc"] ⟨"tool", some "ABC", "x", []⟩ = true ∧
    chatPruned ["abc"] ⟨"tool", some "ABC", "x", []⟩ = false := by
  constructor
  · exact ((C5_normalization_amended.2.1 ["abc"]
      ⟨"tool", some "ABC", "x", []⟩ "ABC" rfl).mpr ⟨rfl, by decide⟩)
  · have h := C5_normalization_amended.2.2 ["abc"]
      ⟨"tool", some "ABC", "x", []⟩ "ABC" rfl
    by_cases hb : chatPruned ["abc"] ⟨"tool", some "ABC", "x", []⟩ = true
    · exact absurd ((h.mp hb).2) (by decide)
    · simpa using hb

/-! ## Analysis Orchestrator (Janitor.run, src/lib/synth-instruction.ts) -/

/-- One part of a transcript message as the Janitor walks it: `ptype` is
`part.type`, `callID`, `tool`, the completion status of `part.state` and its
`output`. -/
structure JPart where
  ptype : String
  callID : Option String
  tool : String
  completed : Bool
  output : Option String
deriving DecidableEq, Repr

/-- One transcript message: the Janitor only looks at its `parts`. -/
structure JMsg where
  parts : List JPart
deriving DecidableEq, Repr

/-- Models `map.set(k, v)` on a JS `Map` kept as an insertion-ordered
association list: an existing key keeps its position and gets the new value,
a fresh key is appended. -/
def mapSet {α : Type} (l : List (String × α)) (k : String) (v : α) :
    List (String × α) :=
  if l.any (fun p => p.1 == k) then
    l.map (fun p => if p.1 == k then (k, v) else p)
  else l ++ [(k, v)]

/-- Models `map.get(k)` on a JS `Map` kept as an association list. -/
def mapGet {α : Type} (l : List (String × α)) (k : String) : Option α :=
  (l.find? (fun p => p.1 == k)).map (fun p => p.2)

/-- Models JS `s.startsWith(pre)` (kernel-reducible, unlike the byte-based
`String.startsWith`). -/
def strStartsWith (s pre : String) : Bool :=
  pre.data.isPrefixOf s.data

/-- The accumulator of the Janitor's transcript walk: collected (normalized)
tool call ids, tool metadata, completed outputs, the batch/child relation and
the currently open batch group. -/
structure CollectState where
  toolCallIds : List String
  toolMetadata : List (String × String)
  toolOutputs : List (String × String)
  batchToolChildren : List (String × List String)
  currentBatchId : Option String
deriving DecidableEq, Repr

/-- Processing of a single transcript part by the Janitor's collection loop:
normalize the call id, record it with its metadata and output, and drive the
batch state machine (`batch` tool opens a group, `prt_`-prefixed ids inside a
group are its children, any other id closes the group). -/
def collectPart (st : CollectState) (p : JPart) : CollectState :=
  if p.ptype == "tool" ∧ p.callID.isSome then
    let nid := normalizeId (p.callID.getD "")
    let st1 := { st with
      toolCallIds := st.toolCallIds ++ [nid],
      toolMetadata := mapSet st.toolMetadata nid p.tool }
    let st2 :=
      if p.completed ∧ p.output.isSome then
        { st1 with toolOutputs := mapSet st1.toolOutputs nid (p.output.getD "") }
      else st1
    if p.tool == "batch" then
      { st2 with
        currentBatchId := some nid,
        batchToolChildren := mapSet st2.batchToolChildren nid [] }
    else
      match st2.currentBatchId with
      | some b =>
        if strStartsWith nid "prt_" then
          let kids := (mapGet st2.batchToolChildren b).getD [] ++ [nid]
          { st2 with batchToolChildren := mapSet st2.batchToolChildren b kids }
        else { st2 with currentBatchId := none }
      | none => st2
  else st

/-- The Janitor's transcript walk over all messages and their parts. -/
def collectTools (messages : List JMsg) : CollectState :=
  messages.foldl (fun st msg => msg.parts.foldl collectPart st)
    ⟨[], [], [], [], none⟩

/-- The candidate ids offered to the LLM decision: observed ids minus the
already-pruned ones, minus ids whose recorded tool name is protected (an id
with no recorded metadata is kept, as in the code). -/
def prunableIds (st : CollectState)
    (alreadyPruned protectedTools : List String) : List String :=
  (st.toolCallIds.filter (fun id => !alreadyPruned.contains id)).filter
    (fun id =>
      match mapGet st.toolMetadata id with
      | some t => !protectedTools.contains t
      | none => true)

/-- Processing of one id returned by the LLM decision: normalize it, add it
to the expanded set, and union in the recorded children when it is a batch
parent. -/
def expandStep (batchChildren : List (String × List String))
    (acc : List String) (pid : String) : List String :=
  match mapGet batchChildren (normalizeId pid) with
  | some children => children.foldl setAdd (setAdd acc (normalizeId pid))
  | none => setAdd acc (normalizeId pid)

/-- The Janitor's batch expansion of the LLM decision
(`expandedPrunedIds`). -/
def expandPruned (decision : List String)
    (batchChildren : List (String × List String)) : List String :=
  decision.foldl (expandStep batchChildren) []

/-- The Janitor's merge before persisting:
`[...new Set([...alreadyPrunedIds, ...finalPrunedIds])]`. -/
def mergePruned (alreadyPruned expanded : List String) : List String :=
  jsDedup (alreadyPruned ++ expanded)

/-- The pruned-id set the Janitor persists for given transcript, prior state
and LLM decision.  Note that it does not depend on the protected-tools list:
the code applies that list only when building the candidate set. -/
def janitorPersisted (messages : List JMsg)
    (alreadyPruned decision : List String) : List String :=
  mergePruned alreadyPruned
    (expandPruned decision (collectTools messages).batchToolChildren)

theorem mem_foldl_setAdd {x : String} (cs : List String) (acc : List String) :
    x ∈ cs.foldl setAdd acc ↔ x ∈ acc ∨ x ∈ cs := by
  induction cs generalizing acc with
  | nil => simp
  | cons c cs ih =>
    rw [List.foldl_cons, ih]
    rw [mem_setAdd]
    constructor
    · rintro ((hx | rfl) | hx)
      · exact Or.inl hx
      · exact Or.inr (List.mem_cons_self _ _)
      · exact Or.inr (List.mem_cons_of_mem _ hx)
    · rintro (hx | hx)
      · exact Or.inl (Or.inl hx)
      · rcases List.mem_cons.mp hx with rfl | hx
        · exact Or.inl (Or.inr rfl)
        · exact Or.inr hx

theorem mem_expandStep_of_mem {x : String}
    {batchChildren : List (String × List String)} {acc : List String}
    (pid : String) (hx : x ∈ acc) :
    x ∈ expandStep batchChildren acc pid := by
  unfold expandStep
  cases mapGet batchChildren (normalizeId pid) with
  | none => exact mem_setAdd.mpr (Or.inl hx)
  | some children =>
    exact (mem_foldl_setAdd children _).mpr (Or.inl (mem_setAdd.mpr (Or.inl hx)))

theorem self_mem_expandStep (batchChildren : List (String × List String))
    (acc : List String) (pid : String) :
    normalizeId pid ∈ expandStep batchChildren acc pid := by
  unfold expandStep
  cases mapGet batchChildren (normalizeId pid) with
  | none => exact mem_setAdd.mpr (Or.inr rfl)
  | some children =>
    exact (mem_foldl_setAdd children _).mpr
      (Or.inl (mem_setAdd.mpr (Or.inr rfl)))

theorem children_mem_expandStep {batchChildren : List (String × List String)}
    {cs : List String} (acc : List String) (pid : String)
    (hcs : mapGet batchChildren (normalizeId pid) = some cs) :
    ∀ c ∈ cs, c ∈ expandStep batchChildren acc pid := by
  intro c hc
  unfold expandStep
  rw [hcs]
  exact (mem_foldl_setAdd cs _).mpr (Or.inr hc)

theorem mem_foldl_expandStep_of_mem {x : String}
    {batchChildren : List (String × List String)} (d : List String)
    {acc : List String} (hx : x ∈ acc) :
    x ∈ d.foldl (expandStep batchChildren) acc := by
  induction d generalizing acc with
  | nil => exact hx
  | cons p ps ih => exact ih (mem_expandStep_of_mem p hx)

theorem expandPruned_mem_of_mem_decision
    {decision : List String} {batchChildren : List (String × List String)}
    {p : String} (hp : p ∈ decision) :
    normalizeId p ∈ expandPruned decision batchChildren ∧
    (∀ cs, mapGet batchChildren (normalizeId p) = some cs →
      ∀ c ∈ cs, c ∈ expandPruned decision batchChildren) := by
  unfold expandPruned
  generalize ([] : List String) = acc
  induction decision generalizing acc with
  | nil => cases hp
  | cons q qs ih =>
    rcases List.mem_cons.mp hp with rfl | hp
    · constructor
      · exact mem_foldl_expandStep_of_mem qs
          (self_mem_expandStep batchChildren acc p)
      · intro cs hcs c hc
        exact mem_foldl_expandStep_of_mem qs
          (children_mem_expandStep acc p hcs c hc)
    · exact ih hp _

theorem mem_expandPruned {x : String} {decision : List String}
    {batchChildren : List (String × List String)}
    (hx : x ∈ expandPruned decision batchChildren) :
    ∃ p ∈ decision, x = normalizeId p ∨
      ∃ cs, mapGet batchChildren (normalizeId p) = some cs ∧ x ∈ cs := by
  unfold expandPruned at hx
  have main : ∀ (d : List String) (acc : List String),
      x ∈ d.foldl (expandStep batchChildren) acc →
      x ∈ acc ∨ ∃ p ∈ d, x = normalizeId p ∨
        ∃ cs, mapGet batchChildren (normalizeId p) = some cs ∧ x ∈ cs := by
    intro d
    induction d with
    | nil => exact fun acc h => Or.inl h
    | cons q qs ih =>
      intro acc h
      rcases ih _ h with hacc | ⟨p, hpd, hform⟩
      · unfold expandStep at hacc
        cases hcs : mapGet batchChildren (normalizeId q) with
        | none =>
          rw [hcs] at hacc
          rcases mem_setAdd.mp hacc with hacc | rfl
          · exact Or.inl hacc
          · exact Or.inr ⟨q, List.mem_cons_self _ _, Or.inl rfl⟩
        | some cs =>
          rw [hcs] at hacc
          rcases (mem_foldl_setAdd cs _).mp hacc with hacc | hcsx
          · rcases mem_setAdd.mp hacc with hacc | rfl
            · exact Or.inl hacc
            · exact Or.inr ⟨q, List.mem_cons_self _ _, Or.inl rfl⟩
          · exact Or.inr ⟨q, List.mem_cons_self _ _, Or.inr ⟨cs, hcs, hcsx⟩⟩
      · exact Or.inr ⟨p, List.mem_cons_of_mem _ hpd, hform⟩
  rcases main decision [] hx with h | h
  · cases h
  · exact h

theorem mem_mergePruned {x : String} {a e : List String} :
    x ∈ mergePruned a e ↔ x ∈ a ∨ x ∈ e := by
  simp [mergePruned, mem_jsDedup, List.mem_append]

/-- Transcript used to refute C2: a `batch` tool call followed by a
`prt_`-prefixed child whose tool is the protected `task`. -/
def c2msgs : List JMsg :=
  [⟨[⟨"tool", some "batch_1", "batch", true, some "o1"⟩,
     ⟨"tool", some "prt_1", "task", true, some "o2"⟩]⟩]

/-- C2 counterexample. A call-id whose recorded tool name is protected can be
added to the persisted pruned set: the batch parent `batch_1` is a legitimate
candidate (its child `prt_1`, whose tool is the protected `task`, is filtered
out of the candidates), yet when the decision prunes `batch_1`, batch
expansion unions in `prt_1` with no protected-tool check, so the persisted set
contains a protected id. -/
theorem C2_protected_counterexample :
    prunableIds (collectTools c2msgs) [] ["task"] = ["batch_1"] ∧
    mapGet (collectTools c2msgs).toolMetadata "prt_1" = some "task" ∧
    (["task"] : List String).contains "task" = true ∧
    "prt_1" ∈ janitorPersisted c2msgs [] ["batch_1"] := by
  refine ⟨by decide, by decide, by decide, by decide⟩

/-- C2 (amended). The protected-tools list is enforced on the candidate set
only: no id whose recorded tool name is protected is ever in the candidate
list passed to the LLM; and every id newly added to the persisted set is
either the normalization of an id returned by the decision or a recorded
batch child of such an id (with no protected-tool check on either). -/
theorem C2_protected_amended (messages : List JMsg)
    (alreadyPruned protectedTools decision : List String) :
    (∀ id ∈ prunableIds (collectTools messages) alreadyPruned protectedTools,
      ∀ t, mapGet (collectTools messages).toolMetadata id = some t →
        protectedTools.contains t = false) ∧
    (∀ id ∈ janitorPersisted messages alreadyPruned decision,
      id ∈ alreadyPruned ∨ ∃ p ∈ decision, id = normalizeId p ∨
        ∃ cs, mapGet (collectTools messages).batchToolChildren
          (normalizeId p) = some cs ∧ id ∈ cs) := by
  constructor
  · intro id hid t hmg
    have hpred := (List.mem_filter.mp hid).2
    rw [hmg] at hpred
    simpa using hpred
  · intro id hid
    rcases mem_mergePruned.mp hid with h | h
    · exact Or.inl h
    · exact Or.inr (mem_expandPruned h)

/-- Concrete instantiation of `C2_protected_amended`: the only candidate in
the counterexample transcript is `batch_1`, whose tool `batch` is indeed not
protected. -/
theorem C2_protected_amended_witness :
    (["task"] : List String).contains "batch" = false :=
  (C2_protected_amended c2msgs [] ["task"] ["batch_1"]).1 "batch_1"
    (by decide) "batch" (by decide)

/-- C3. Batch closure of the expansion step: for every id in the LLM decision
that is a recorded batch parent, the expanded set — and hence the persisted
merged set — contains the (normalized) parent and every id recorded as its
child at collection time. -/
theorem C3_batch_closure (messages : List JMsg)
    (alreadyPruned decision : List String) (p : String) (cs : List String)
    (hp : p ∈ decision)
    (hcs : mapGet (collectTools messages).batchToolChildren (normalizeId p) =
      some cs) :
    normalizeId p ∈
      expandPruned decision (collectTools messages).batchToolChildren ∧
    (∀ c ∈ cs,
      c ∈ expandPruned decision (collectTools messages).batchToolChildren) ∧
    normalizeId p ∈ janitorPersisted messages alreadyPruned decision ∧
    (∀ c ∈ cs, c ∈ janitorPersisted messages alreadyPruned decision) := by
  obtain ⟨h1, h2⟩ := expandPruned_mem_of_mem_decision hp
  exact ⟨h1, h2 cs hcs, mem_mergePruned.mpr (Or.inr h1),
    fun c hc => mem_mergePruned.mpr (Or.inr (h2 cs hcs c hc))⟩

/-- Transcript for the C3 scenario: batch parent `batch_1` with children
`prt_1` and `prt_2`. -/
def c3msgs : List JMsg :=
  [⟨[⟨"tool", some "batch_1", "batch", true, some "b"⟩,
     ⟨"tool", some "prt_1", "read", true, some "x"⟩,
     ⟨"tool", some "prt_2", "read", true, some "y"⟩]⟩]

/-- Concrete instantiation of `C3_batch_closure`, the spec's scenario: batch
parent `batch_1` with children `[prt_1, prt_2]` and decision `[batch_1]`
expand to exactly the set `{batch_1, prt_1, prt_2}`, all of which are
persisted. -/
theorem C3_batch_closure_witness :
    expandPruned ["batch_1"] (collectTools c3msgs).batchToolChildren =
      ["batch_1", "prt_1", "prt_2"] ∧
    "batch_1" ∈ janitorPersisted c3msgs [] ["batch_1"] ∧
    "prt_1" ∈ janitorPersisted c3msgs [] ["batch_1"] ∧
    "prt_2" ∈ janitorPersisted c3msgs [] ["batch_1"] := by
  have h := C3_batch_closure c3msgs [] ["batch_1"] "batch_1"
    ["prt_1", "prt_2"] (by decide) (by decide)
  have hn : normalizeId "batch_1" = "batch_1" := by decide
  refine ⟨by decide, hn ▸ h.2.2.1, ?_, ?_⟩
  · exact h.2.2.2 "prt_1" (by decide)
  · exact h.2.2.2 "prt_2" (by decide)

/-! ## Prune State Store mutations (Janitor merge-and-set, squash append) -/

/-- A sequentially-executed mutation of one session's persisted prune state:
either the Janitor's merge-and-set
(`[...new Set([...alreadyPrunedIds, ...finalPrunedIds])]` followed by `set`),
or a squash-handler append (`state.prune.toolIds.push(...containedToolIds)`). -/
inductive PruneMutation where
  | janitorMerge (expanded : List String)
  | squashAppend (ids : List String)
deriving DecidableEq, Repr

/-- Applying one mutation to the previously persisted list.  Under sequential
execution the Janitor's freshly-read `alreadyPrunedIds` is exactly the
previously persisted list. -/
def applyPruneMutation (prev : List String) : PruneMutation → List String
  | .janitorMerge expanded => mergePruned prev expanded
  | .squashAppend ids => prev ++ ids

/-- The persisted list after running a sequence of mutations from an initial
persisted list. -/
def persistedAfter (init : List String) (ms : List PruneMutation) :
    List String :=
  ms.foldl applyPruneMutation init

theorem mem_applyPruneMutation_of_mem {x : String} {prev : List String}
    (m : PruneMutation) (hx : x ∈ prev) : x ∈ applyPruneMutation prev m := by
  cases m with
  | janitorMerge expanded => exact mem_mergePruned.mpr (Or.inl hx)
  | squashAppend ids => exact List.mem_append_left _ hx

theorem mem_persistedAfter_of_mem {x : String} {init : List String}
    (ms : List PruneMutation) (hx : x ∈ init) :
    x ∈ persistedAfter init ms := by
  induction ms generalizing init with
  | nil => exact hx
  | cons m ms ih => exact ih (mem_applyPruneMutation_of_mem m hx)

/-- C4. Monotonicity of the persisted prune state: across any sequence of
sequentially-executed mutations (Janitor merges and squash appends), every id
present after the first `i` mutations is still present after the first `j ≥ i`
mutations — no mutation removes an id — and hence the number of distinct
persisted ids is non-decreasing. -/
theorem C4_prunedIds_monotone (init : List String) (ms : List PruneMutation)
    (i j : Nat) (hij : i ≤ j) :
    (∀ x, x ∈ persistedAfter init (ms.take i) →
      x ∈ persistedAfter init (ms.take j)) ∧
    (persistedAfter init (ms.take i)).toFinset.card ≤
      (persistedAfter init (ms.take j)).toFinset.card := by
  have hj : ms.take j = ms.take i ++ (ms.drop i).take (j - i) := by
    have hji : ms.take j = ms.take (i + (j - i)) := by
      rw [show i + (j - i) = j by omega]
    rw [hji, List.take_add]
  have hmem : ∀ x, x ∈ persistedAfter init (ms.take i) →
      x ∈ persistedAfter init (ms.take j) := by
    intro x hx
    rw [hj]
    unfold persistedAfter
    rw [List.foldl_append]
    exact mem_persistedAfter_of_mem _ hx
  refine ⟨hmem, Finset.card_le_card ?_⟩
  intro x hx
  exact List.mem_toFinset.mpr (hmem x (List.mem_toFinset.mp hx))

/-- Concrete instantiation of `C4_prunedIds_monotone`: one Janitor merge on a
one-id state keeps the id and does not shrink the set. -/
theorem C4_prunedIds_monotone_witness :
    "a" ∈ persistedAfter ["a"] ([PruneMutation.janitorMerge ["b", "a"]].take 1) ∧
    (persistedAfter ["a"] ([PruneMutation.janitorMerge ["b", "a"]].take 0)).toFinset.card ≤
      (persistedAfter ["a"] ([PruneMutation.janitorMerge ["b", "a"]].take 1)).toFinset.card := by
  have h := C4_prunedIds_monotone ["a"] [PruneMutation.janitorMerge ["b", "a"]]
    0 1 (by decide)
  exact ⟨h.1 "a" (by decide), h.2⟩

/-! ## Janitor.run control flow and failure semantics -/

/-- The outcomes of the external calls `Janitor.run` performs, supplied as
input to the model: the transcript fetch (session info and messages), the
state read, model selection, the structured LLM decision, the state write and
the toast.  An `Except.error` value means that call would throw. -/
structure JanitorEnv where
  messagesRes : Except String (List JMsg)
  alreadyPrunedRes : Except String (List String)
  modelRes : Except String Unit
  decisionRes : Except String (List String)
  persistRes : Except String Unit
  toastRes : Except String Unit

/-- Observable outcome of one `Janitor.run` invocation: whether it threw to
its caller, whether the LLM decision call was issued, and what (if anything)
was written to the prune state store. -/
structure JanitorOutcome where
  threwToCaller : Bool
  llmCalled : Bool
  persisted : Option (List String)
deriving DecidableEq, Repr

/-- Control-flow model of `Janitor.run`: the entire body is wrapped in a
`try`/`catch` whose handler only logs, so no error propagates; the run aborts
before the LLM call when the transcript has fewer than 3 messages or the
candidate set is empty; the state write happens once, after the decision,
with the fully merged set; the toast result never affects the outcome. -/
def janitorRun (protectedTools : List String) (env : JanitorEnv) :
    JanitorOutcome :=
  match env.messagesRes with
  | .error _ => ⟨false, false, none⟩
  | .ok messages =>
    if messages.length < 3 then ⟨false, false, none⟩
    else
      match env.alreadyPrunedRes with
      | .error _ => ⟨false, false, none⟩
      | .ok alreadyPruned =>
        if (prunableIds (collectTools messages) alreadyPruned
            protectedTools).length = 0 then
          ⟨false, false, none⟩
        else
          match env.modelRes with
          | .error _ => ⟨false, false, none⟩
          | .ok _ =>
            match env.decisionRes with
            | .error _ => ⟨false, true, none⟩
            | .ok decision =>
              match env.persistRes with
              | .error _ => ⟨false, true, none⟩
              | .ok _ =>
                ⟨false, true, some (janitorPersisted messages alreadyPruned
                  decision)⟩

/-- C6. `Janitor.run` never throws to its caller; with fewer than the minimum
3 messages, or with an empty candidate set, it returns with no side effects
(no LLM call, no state write); when the decision call or the state write
fails, nothing is persisted; and anything persisted is exactly the full
merged set — nothing partial. -/
theorem C6_janitor_never_throws (protectedTools : List String)
    (env : JanitorEnv) :
    (janitorRun protectedTools env).threwToCaller = false ∧
    (∀ msgs, env.messagesRes = .ok msgs → msgs.length < 3 →
      janitorRun protectedTools env = ⟨false, false, none⟩) ∧
    (∀ msgs already, env.messagesRes = .ok msgs →
      env.alreadyPrunedRes = .ok already →
      prunableIds (collectTools msgs) already protectedTools = [] →
      janitorRun protectedTools env = ⟨false, false, none⟩) ∧
    (∀ e, env.decisionRes = .error e →
      (janitorRun protectedTools env).persisted = none) ∧
    (∀ e, env.persistRes = .error e →
      (janitorRun protectedTools env).persisted = none) ∧
    (∀ l, (janitorRun protectedTools env).persisted = some l →
      ∃ msgs already decision, env.messagesRes = .ok msgs ∧
        env.alreadyPrunedRes = .ok already ∧ env.decisionRes = .ok decision ∧
        l = janitorPersisted msgs already decision) := by
  obtain ⟨mr, ar, sr, dr, pr, tr⟩ := env
  cases mr with
  | error e => refine ⟨rfl, ?_, ?_, ?_, ?_, ?_⟩ <;> intros <;> simp_all [janitorRun]
  | ok msgs =>
    by_cases h3 : msgs.length < 3
    · have hrun : janitorRun protectedTools ⟨.ok msgs, ar, sr, dr, pr, tr⟩ =
          ⟨false, false, none⟩ := by
        simp only [janitorRun]
        rw [if_pos h3]
      refine ⟨?_, ?_, ?_, ?_, ?_, ?_⟩ <;> rw [hrun] <;> intros <;> simp_all
    · cases ar with
      | error e =>
        have hrun : janitorRun protectedTools
            ⟨.ok msgs, .error e, sr, dr, pr, tr⟩ = ⟨false, false, none⟩ := by
          simp only [janitorRun]
          rw [if_neg h3]
        refine ⟨?_, ?_, ?_, ?_, ?_, ?_⟩ <;> rw [hrun] <;> intros <;> simp_all
      | ok already =>
        by_cases hpr : (prunableIds (collectTools msgs) already
            protectedTools).length = 0
        · have hrun : janitorRun protectedTools
              ⟨.ok msgs, .ok already, sr, dr, pr, tr⟩ =
              ⟨false, false, none⟩ := by
            simp only [janitorRun]
            rw [if_neg h3, if_pos hpr]
          refine ⟨?_, ?_, ?_, ?_, ?_, ?_⟩ <;> rw [hrun] <;> intros <;> simp_all
        · have hprl : prunableIds (collectTools msgs) already protectedTools ≠
              [] := fun hnil => hpr (by rw [hnil]; rfl)
          cases sr with
          | error e =>
            have hrun : janitorRun protectedTools
                ⟨.ok msgs, .ok already, .error e, dr, pr, tr⟩ =
                ⟨false, false, none⟩ := by
              simp only [janitorRun]
              rw [if_neg h3, if_neg hpr]
            refine ⟨?_, ?_, ?_, ?_, ?_, ?_⟩ <;> rw [hrun] <;> intros <;>
              simp_all
          | ok u =>
            cases dr with
            | error e =>
              have hrun : janitorRun protectedTools
                  ⟨.ok msgs, .ok already, .ok u, .error e, pr, tr⟩ =
                  ⟨false, true, none⟩ := by
                simp only [janitorRun]
                rw [if_neg h3, if_neg hpr]
              refine ⟨?_, ?_, ?_, ?_, ?_, ?_⟩
              · rw [hrun]
              · intro msgs' hmeq h3'
                cases hmeq
                exact absurd h3' h3
              · intro msgs' already' hmeq haeq hnil
                cases hmeq
                cases haeq
                exact absurd hnil hprl
              · intro e' he'
                rw [hrun]
              · intro e' he'
                rw [hrun]
              · intro l hl
                rw [hrun] at hl
                simp at hl
            | ok decision =>
              cases pr with
              | error e =>
                have hrun : janitorRun protectedTools
                    ⟨.ok msgs, .ok already, .ok u, .ok decision, .error e,
                      tr⟩ = ⟨false, true, none⟩ := by
                  simp only [janitorRun]
                  rw [if_neg h3, if_neg hpr]
                refine ⟨?_, ?_, ?_, ?_, ?_, ?_⟩
                · rw [hrun]
                · intro msgs' hmeq h3'
                  cases hmeq
                  exact absurd h3' h3
                · intro msgs' already' hmeq haeq hnil
                  cases hmeq
                  cases haeq
                  exact absurd hnil hprl
                · intro e' he'
                  rw [hrun]
                · intro e' he'
                  rw [hrun]
                · intro l hl
                  rw [hrun] at hl
                  simp at hl
              | ok v =>
                have hrun : janitorRun protectedTools
                    ⟨.ok msgs, .ok already, .ok u, .ok decision, .ok v, tr⟩ =
                    ⟨false, true,
                      some (janitorPersisted msgs already decision)⟩ := by
                  simp only [janitorRun]
                  rw [if_neg h3, if_neg hpr]
                refine ⟨?_, ?_, ?_, ?_, ?_, ?_⟩
                · rw [hrun]
                · intro msgs' hmeq h3'
                  cases hmeq
                  exact absurd h3' h3
                · intro msgs' already' hmeq haeq hnil
                  cases hmeq
                  cases haeq
                  exact absurd hnil hprl
                · intro e he
                  cases he
                · intro e he
                  cases he
                · intro l hl
                  rw [hrun] at hl
                  simp only [Option.some.injEq] at hl
                  exact ⟨msgs, already, decision, rfl, rfl, rfl, hl.symm⟩

/-- Concrete instantiation of `C6_janitor_never_throws`: on an empty
transcript the run aborts with no LLM call and no state write. -/
theorem C6_janitor_never_throws_witness :
    janitorRun ["task"]
      ⟨.ok [], .ok [], .ok (), .ok ["x"], .ok (), .ok ()⟩ =
      ⟨false, false, none⟩ :=
  (C6_janitor_never_throws ["task"]
    ⟨.ok [], .ok [], .ok (), .ok ["x"], .ok (), .ok ()⟩).2.1 [] rfl
    (by decide)

/-! ## Squash handler (findStringInMessages, createSquashTool execute) -/

/-- One part of a transcript message as the squash handler scans it. -/
inductive SPart where
  | text (t : String)
  | tool (callID : Option String) (completed : Bool) (output : Option String)
      (input : Option String)
  | other
deriving DecidableEq, Repr

/-- One transcript message: its id (`msg.info.id`) and its parts. -/
structure SMsg where
  id : String
  parts : List SPart
deriving DecidableEq, Repr

/-- The text content `findStringInMessages` searches within one part: the
text of a text part; for a completed tool part, its string output followed by
a space and its input; empty otherwise. -/
def partContent : SPart → String
  | .text t => t
  | .tool _ true out inp =>
    (out.getD "") ++ (match inp with | some i => " " ++ i | none => "")
  | .tool _ false _ _ => ""
  | .other => ""

/-- The matches accumulator walk of `findStringInMessages`: a message is
recorded (with its index) when some part's content contains the search string
and the message id is not already recorded. -/
def findMatchesAux (search : String) :
    List SMsg → Nat → List (String × Nat) → List (String × Nat)
  | [], _, acc => acc
  | msg :: rest, i, acc =>
    let acc1 := msg.parts.foldl (fun a p =>
      if jsIncludes (partContent p) search ∧ ¬ a.any (fun m => m.1 == msg.id)
      then a ++ [(msg.id, i)]
      else a) acc
    findMatchesAux search rest (i + 1) acc1

/-- The list of `(messageId, messageIndex)` matches of a search string. -/
def findMatches (messages : List SMsg) (search : String) :
    List (String × Nat) :=
  findMatchesAux search messages 0 []

/-- Models `findStringInMessages`: throws when the string is found in zero
messages or in more than one message, otherwise returns the unique match. -/
def findStringInMessages (messages : List SMsg) (search : String) :
    Except String (String × Nat) :=
  match findMatches messages search with
  | [] => .error "String not found in conversation."
  | [m] => .ok m
  | _ :: _ :: _ => .error "String found in multiple messages."

/-- The inclusive message range `[startIndex, endIndex]`. -/
def msgsInRange (messages : List SMsg) (startIndex endIndex : Nat) :
    List SMsg :=
  (messages.drop startIndex).take (endIndex - startIndex + 1)

/-- Models `collectToolIdsInRange`: every tool part's `callID` in the
inclusive range, first occurrence only. -/
def collectToolIdsInRange (messages : List SMsg) (si ei : Nat) :
    List String :=
  (msgsInRange messages si ei).foldl (fun acc msg =>
    msg.parts.foldl (fun a p =>
      match p with
      | .tool (some cid) _ _ _ => if a.contains cid then a else a ++ [cid]
      | _ => a) acc) []

/-- Models `collectMessageIdsInRange`: every message id in the inclusive
range, first occurrence only. -/
def collectMessageIdsInRange (messages : List SMsg) (si ei : Nat) :
    List String :=
  (msgsInRange messages si ei).foldl (fun acc msg =>
    if acc.contains msg.id then acc else acc ++ [msg.id]) []

/-- Models the JS blank test `!s || s.trim() === ''` used by the squash
argument validation. -/
def isBlank (s : String) : Bool :=
  s.data.all Char.isWhitespace

/-- The squash-relevant session state: `state.prune.toolIds`,
`state.prune.messageIds` and `state.prune.squashSummaries`
(anchor message id paired with the summary text). -/
structure SquashState where
  pruneToolIds : List String
  pruneMessageIds : List String
  squashSummaries : List (String × String)
deriving DecidableEq, Repr

/-- Models the squash tool `execute`: validate the four strings, locate the
unique start and end matches, require start not after end, then append the
contained tool ids, message ids and the anchored summary to the session state
and report the number of messages squashed.  Every error path returns the
state unchanged, since the code performs all its mutations after the last
validation. -/
def squashExecute (state : SquashState) (messages : List SMsg)
    (startString endString topic summary : String) :
    SquashState × Except String Nat :=
  if isBlank startString then (state, .error "startString is required")
  else if isBlank endString then (state, .error "endString is required")
  else if isBlank topic then (state, .error "topic is required")
  else if isBlank summary then (state, .error "summary is required")
  else
    match findStringInMessages messages startString with
    | .error e => (state, .error e)
    | .ok (startId, startIndex) =>
      match findStringInMessages messages endString with
      | .error e => (state, .error e)
      | .ok (_, endIndex) =>
        if endIndex < startIndex then
          (state, .error "startString appears after endString")
        else
          ({ pruneToolIds := state.pruneToolIds ++
              collectToolIdsInRange messages startIndex endIndex,
             pruneMessageIds := state.pruneMessageIds ++
              collectMessageIdsInRange messages startIndex endIndex,
             squashSummaries := state.squashSummaries ++
              [(startId, summary)] },
           .ok (endIndex - startIndex + 1))

/-- C7 counterexample. As stated, the claim fails for blank arguments: the
start substring `" "` (a single space) matches exactly one message and does
not come after the unique end match, yet the call reports an error (the
argument validation rejects blank strings before any matching), rather than
succeeding. -/
theorem C7_squash_counterexample :
    findMatches [⟨"m1", [SPart.text "a b"]⟩] " " = [("m1", 0)] ∧
    findMatches [⟨"m1", [SPart.text "a b"]⟩] "b" = [("m1", 0)] ∧
    (squashExecute ⟨[], [], []⟩ [⟨"m1", [SPart.text "a b"]⟩]
      " " "b" "topic" "summary").2 = .error "startString is required" ∧
    (squashExecute ⟨[], [], []⟩ [⟨"m1", [SPart.text "a b"]⟩]
      " " "b" "topic" "summary").1 = ⟨[], [], []⟩ := by
  refine ⟨by decide, by decide, rfl, rfl⟩

/-- C7 (amended). For non-blank start/end/topic/summary strings: when each
boundary substring matches exactly one message and the start match does not
come after the end match, the call succeeds and reports
`messagesSquashed = endIndex - startIndex + 1`; and whenever either substring
matches zero messages or more than one message, the call reports an error and
leaves the session prune/squash state unchanged. -/
theorem C7_squash_amended :
    (∀ (state : SquashState) (messages : List SMsg)
       (ss es topic summary sid eid : String) (si ei : Nat),
      isBlank ss = false → isBlank es = false → isBlank topic = false →
      isBlank summary = false →
      findMatches messages ss = [(sid, si)] →
      findMatches messages es = [(eid, ei)] → si ≤ ei →
      (squashExecute state messages ss es topic summary).2 =
        .ok (ei - si + 1)) ∧
    (∀ (state : SquashState) (messages : List SMsg)
       (ss es topic summary : String),
      (findMatches messages ss).length ≠ 1 ∨
        (findMatches messages es).length ≠ 1 →
      (squashExecute state messages ss es topic summary).1 = state ∧
      ∃ e, (squashExecute state messages ss es topic summary).2 =
        .error e) := by
  constructor
  · intro state messages ss es topic summary sid eid si ei
      hbs hbe hbt hbsum hms hme hle
    unfold squashExecute
    rw [hbs, hbe, hbt, hbsum]
    simp only [Bool.false_eq_true, if_false]
    unfold findStringInMessages
    rw [hms, hme]
    dsimp only
    rw [if_neg (by omega : ¬ ei < si)]
  · intro state messages ss es topic summary hbad
    unfold squashExecute
    by_cases hbs : isBlank ss = true
    · rw [hbs]
      exact ⟨rfl, _, rfl⟩
    · rw [Bool.not_eq_true] at hbs
      rw [hbs]
      simp only [Bool.false_eq_true, if_false]
      by_cases hbe : isBlank es = true
      · rw [hbe]
        exact ⟨rfl, _, rfl⟩
      · rw [Bool.not_eq_true] at hbe
        rw [hbe]
        simp only [Bool.false_eq_true, if_false]
        by_cases hbt : isBlank topic = true
        · rw [hbt]
          exact ⟨rfl, _, rfl⟩
        · rw [Bool.not_eq_true] at hbt
          rw [hbt]
          simp only [Bool.false_eq_true, if_false]
          by_cases hbsum : isBlank summary = true
          · rw [hbsum]
            exact ⟨rfl, _, rfl⟩
          · rw [Bool.not_eq_true] at hbsum
            rw [hbsum]
            simp only [Bool.false_eq_true, if_false]
            unfold findStringInMessages
            cases hms : findMatches messages ss with
            | nil => exact ⟨rfl, _, rfl⟩
            | cons m1 t1 =>
              cases t1 with
              | cons m2 t2 => exact ⟨rfl, _, rfl⟩
              | nil =>
                have hsl : (findMatches messages ss).length = 1 := by
                  rw [hms]; rfl
                have hbad2 : (findMatches messages es).length ≠ 1 := by
                  rcases hbad with h | h
                  · exact absurd hsl h
                  · exact h
                cases hme : findMatches messages es with
                | nil =>
                  obtain ⟨mid, mi⟩ := m1
                  exact ⟨rfl, _, rfl⟩
                | cons n1 s1 =>
                  cases s1 with
                  | cons n2 s2 =>
                    obtain ⟨mid, mi⟩ := m1
                    exact ⟨rfl, _, rfl⟩
                  | nil =>
                    exact absurd (by rw [hme]; rfl) hbad2

/-- Concrete instantiation of `C7_squash_amended`: start and end substrings
each matching exactly one message, start before end, over a three-message
range: success with `messagesSquashed = 2 - 0 + 1 = 3`. -/
theorem C7_squash_amended_witness :
    (squashExecute ⟨[], [], []⟩
      [⟨"m1", [SPart.text "alpha start"]⟩, ⟨"m2", [SPart.text "middle"]⟩,
       ⟨"m3", [SPart.text "omega end"]⟩]
      "start" "omega" "topic" "sum").2 = .ok 3 :=
  C7_squash_amended.1 ⟨[], [], []⟩
    [⟨"m1", [SPart.text "alpha start"]⟩, ⟨"m2", [SPart.text "middle"]⟩,
     ⟨"m3", [SPart.text "omega end"]⟩]
    "start" "omega" "topic" "sum" "m1" "m3" 0 2
    (by decide) (by decide) (by decide) (by decide)
    (by decide) (by decide) (by decide)

/-! ## Instruction injection (injectSynth, src/lib/synth-instruction.ts) -/

/-- One block of an array-valued message content. -/
structure CPart where
  ptype : String
  text : Option String
deriving DecidableEq, Repr

/-- A chat message content: either a plain string or an array of blocks (the
two shapes `injectSynth` handles). -/
inductive MContent where
  | str (s : String)
  | arr (parts : List CPart)
deriving DecidableEq, Repr

/-- A message as `injectSynth` sees it. -/
structure SynthMsg where
  role : String
  content : MContent
deriving DecidableEq, Repr

/-- Models `isNudgeMessage`: only a message whose content is exactly the
nudge string counts as a nudge. -/
def isNudgeMessage (msg : SynthMsg) (nudgeText : String) : Bool :=
  match msg.content with
  | .str s => s == nudgeText
  | .arr _ => false

/-- Models the `alreadyInjected` scan over array content: some text block
whose text contains the instruction. -/
def arrAlreadyInjected (ps : List CPart) (instruction : String) : Bool :=
  ps.any (fun p => p.ptype == "text" &&
    (match p.text with
     | some t => jsIncludes t instruction
     | none => false))

/-- The backward scan of `injectSynth`, expressed on the reversed message
list: skip non-user messages and nudge messages; at the first genuine user
message, no-op and report `false` when the instruction is already present,
otherwise append the instruction (to the string, or as a new text block) and
report `true`. -/
def injectSynthRev (instruction nudgeText : String) :
    List SynthMsg → List SynthMsg × Bool
  | [] => ([], false)
  | m :: rest =>
    if (m.role == "user") ∧ (isNudgeMessage m nudgeText = false) then
      match m.content with
      | .str c =>
        if jsIncludes c instruction then (m :: rest, false)
        else ({ m with content := .str (c ++ "\n\n" ++ instruction) } :: rest,
          true)
      | .arr ps =>
        if arrAlreadyInjected ps instruction then (m :: rest, false)
        else ({ m with
          content := .arr (ps ++ [⟨"text", some instruction⟩]) } :: rest,
          true)
    else
      let r := injectSynthRev instruction nudgeText rest
      (m :: r.1, r.2)

/-- Models `injectSynth`: the backward `for` loop over the message list. -/
def injectSynth (messages : List SynthMsg) (instruction nudgeText : String) :
    List SynthMsg × Bool :=
  let r := injectSynthRev instruction nudgeText messages.reverse
  (r.1.reverse, r.2)

theorem jsIncludes_append_self (x y : String) :
    jsIncludes (x ++ y) y = true := by
  unfold jsIncludes
  rw [decide_eq_true_eq]
  rw [String.data_append]
  exact (List.suffix_append x.data y.data).isInfix

theorem jsIncludes_self (s : String) : jsIncludes s s = true := by
  unfold jsIncludes
  rw [decide_eq_true_eq]

theorem injected_not_nudge {c instruction nudgeText : String}
    (hn : jsIncludes nudgeText instruction = false) :
    ((c ++ "\n\n" ++ instruction) == nudgeText) = false := by
  by_cases he : c ++ "\n\n" ++ instruction = nudgeText
  · exfalso
    have ht : jsIncludes nudgeText instruction = true := by
      rw [← he]
      exact jsIncludes_append_self (c ++ "\n\n") instruction
    rw [ht] at hn
    cases hn
  · simp [he]

theorem injectSynthRev_idem (instruction nudgeText : String)
    (hn : jsIncludes nudgeText instruction = false) (l : List SynthMsg) :
    injectSynthRev instruction nudgeText
      (injectSynthRev instruction nudgeText l).1 =
      ((injectSynthRev instruction nudgeText l).1, false) := by
  induction l with
  | nil => rfl
  | cons m rest ih =>
    obtain ⟨role, content⟩ := m
    by_cases hc : ((role == "user") = true) ∧
        (isNudgeMessage ⟨role, content⟩ nudgeText = false)
    · cases content with
      | str c =>
        by_cases hinc : jsIncludes c instruction = true
        · have first : injectSynthRev instruction nudgeText
              (⟨role, .str c⟩ :: rest) = (⟨role, .str c⟩ :: rest, false) := by
            simp only [injectSynthRev]
            rw [if_pos hc]
            rw [if_pos hinc]
          rw [first]
          exact first
        · have first : injectSynthRev instruction nudgeText
              (⟨role, .str c⟩ :: rest) =
              (⟨role, .str (c ++ "\n\n" ++ instruction)⟩ :: rest, true) := by
            simp only [injectSynthRev]
            rw [if_pos hc]
            rw [if_neg hinc]
          have hc2 : ((role == "user") = true) ∧
              (isNudgeMessage ⟨role, .str (c ++ "\n\n" ++ instruction)⟩
                nudgeText = false) := by
            refine ⟨hc.1, ?_⟩
            unfold isNudgeMessage
            exact injected_not_nudge hn
          have second : injectSynthRev instruction nudgeText
              (⟨role, .str (c ++ "\n\n" ++ instruction)⟩ :: rest) =
              (⟨role, .str (c ++ "\n\n" ++ instruction)⟩ :: rest, false) := by
            simp only [injectSynthRev]
            rw [if_pos hc2]
            rw [if_pos (jsIncludes_append_self (c ++ "\n\n") instruction)]
          rw [first]
          exact second
      | arr ps =>
        by_cases hinc : arrAlreadyInjected ps instruction = true
        · have first : injectSynthRev instruction nudgeText
              (⟨role, .arr ps⟩ :: rest) = (⟨role, .arr ps⟩ :: rest, false) := by
            simp only [injectSynthRev]
            rw [if_pos hc]
            rw [if_pos hinc]
          rw [first]
          exact first
        · have first : injectSynthRev instruction nudgeText
              (⟨role, .arr ps⟩ :: rest) =
              (⟨role, .arr (ps ++ [⟨"text", some instruction⟩])⟩ :: rest,
                true) := by
            simp only [injectSynthRev]
            rw [if_pos hc]
            rw [if_neg hinc]
          have hc2 : ((role == "user") = true) ∧
              (isNudgeMessage
                ⟨role, .arr (ps ++ [⟨"text", some instruction⟩])⟩ nudgeText =
                false) := ⟨hc.1, rfl⟩
          have hadd : arrAlreadyInjected (ps ++ [⟨"text", some instruction⟩])
              instruction = true := by
            simp [arrAlreadyInjected, List.any_append, jsIncludes_self]
          have second : injectSynthRev instruction nudgeText
              (⟨role, .arr (ps ++ [⟨"text", some instruction⟩])⟩ :: rest) =
              (⟨role, .arr (ps ++ [⟨"text", some instruction⟩])⟩ :: rest,
                false) := by
            simp only [injectSynthRev]
            rw [if_pos hc2]
            rw [if_pos hadd]
          rw [first]
          exact second
    · have first : injectSynthRev instruction nudgeText
          (⟨role, content⟩ :: rest) =
          (⟨role, content⟩ ::
            (injectSynthRev instruction nudgeText rest).1,
            (injectSynthRev instruction nudgeText rest).2) := by
        simp only [injectSynthRev]
        rw [if_neg hc]
      rw [first]
      have second : injectSynthRev instruction nudgeText
          (⟨role, content⟩ ::
            (injectSynthRev instruction nudgeText rest).1) =
          (⟨role, content⟩ ::
            (injectSynthRev instruction nudgeText rest).1, false) := by
        simp only [injectSynthRev]
        rw [if_neg hc, ih]
      exact second

/-- C8 counterexample. As universally stated the claim fails: with
instruction `I` and nudge text `hello` + blank line + `I`, injecting into
`[user "x", user "hello"]` rewrites the last user message into exactly the
nudge text, so a second call skips it as a nudge, walks back to `user "x"`,
injects again and returns `true` — not `false` with the list unchanged. -/
theorem C8_inject_counterexample :
    (injectSynth
      (injectSynth [⟨"user", MContent.str "x"⟩, ⟨"user", MContent.str "hello"⟩]
        "I" "hello\n\nI").1
      "I" "hello\n\nI").2 = true := by
  decide

/-- C8 (amended). `injectSynth` is idempotent whenever the instruction text is
not a substring of the nudge text (true of the fixed prompts in deployment):
a second call on the result list returns `false` and leaves the list
unchanged. -/
theorem C8_inject_idempotent (messages : List SynthMsg)
    (instruction nudgeText : String)
    (hn : jsIncludes nudgeText instruction = false) :
    injectSynth (injectSynth messages instruction nudgeText).1
      instruction nudgeText =
      ((injectSynth messages instruction nudgeText).1, false) := by
  unfold injectSynth
  dsimp only
  rw [List.reverse_reverse]
  rw [injectSynthRev_idem instruction nudgeText hn]

/-- Concrete instantiation of `C8_inject_idempotent`: injecting twice into a
one-user-message list with distinct instruction and nudge strings. -/
theorem C8_inject_idempotent_witness :
    injectSynth
      (injectSynth [⟨"user", MContent.str "hi"⟩] "DO" "N").1 "DO" "N" =
      ((injectSynth [⟨"user", MContent.str "hi"⟩] "DO" "N").1, false) :=
  C8_inject_idempotent [⟨"user", MContent.str "hi"⟩] "DO" "N" (by decide)

/-! ## Gemini adapter tool-result counting
(geminiAdapter.countToolResults, src/lib/synth-instruction.ts) -/

/-- A `functionResponse` value: only its (optional) function name matters to
the counter. -/
structure GFunctionResponse where
  name : Option String
deriving DecidableEq, Repr

/-- One part of a Gemini content: either a function response or not. -/
structure GPart where
  functionResponse : Option GFunctionResponse
deriving DecidableEq, Repr

/-- One Gemini content: `parts` is `none` when the JS value is not an array
(the `Array.isArray` guard). -/
structure GContent where
  parts : Option (List GPart)
deriving DecidableEq, Repr

/-- The tool tracker: process-lifetime dedup set of seen result ids, count of
results since the last prune, and the idle-suppression flag. -/
structure ToolTracker where
  seenToolResultIds : List String
  toolResultCount : Nat
  skipNextIdle : Bool
deriving DecidableEq, Repr

/-- Models `part.functionResponse.name?.toLowerCase() || 'unknown'`
(an absent or empty lowered name falls back to `unknown`). -/
def geminiFuncName (fr : GFunctionResponse) : String :=
  match fr.name with
  | some n => if normalizeId n == "" then "unknown" else normalizeId n
  | none => "unknown"

/-- Processing of one Gemini part by `geminiAdapter.countToolResults`: build
the positional pseudo-id `gemini:<funcName>:<seen-set size>`; when unseen,
record it, bump the new-result count, and clear `skipNextIdle` unless the
function is the pruning tool itself. -/
def geminiCountPart (acc : ToolTracker × Nat) (p : GPart) :
    ToolTracker × Nat :=
  match p.functionResponse with
  | none => acc
  | some fr =>
    let funcName := geminiFuncName fr
    let pseudoId :=
      "gemini:" ++ funcName ++ ":" ++ toString acc.1.seenToolResultIds.length
    if acc.1.seenToolResultIds.contains pseudoId then acc
    else
      let tr1 := { acc.1 with
        seenToolResultIds := acc.1.seenToolResultIds ++ [pseudoId] }
      let tr2 :=
        if funcName == "context_pruning" then tr1
        else { tr1 with skipNextIdle := false }
      (tr2, acc.2 + 1)

/-- Models `geminiAdapter.countToolResults`: scan every part of every content
with an array `parts`, then add the number of new results to
`toolResultCount` and return it. -/
def geminiCountToolResults (contents : List GContent) (tracker : ToolTracker) :
    ToolTracker × Nat :=
  let res := contents.foldl (fun acc content =>
    match content.parts with
    | some parts => parts.foldl geminiCountPart acc
    | none => acc) (tracker, 0)
  ({ res.1 with toolResultCount := res.1.toolResultCount + res.2 }, res.2)

/-- C9. The first scan of two same-named function-response parts does assign
two distinct pseudo-ids and counts each exactly once — but re-scanning the
same unchanged contents counts them again: the positional counter is the
current size of the seen set, so the second scan builds the fresh pseudo-ids
`gemini:f:2` and `gemini:f:3` and raises `toolResultCount` from 2 to 4,
contradicting the claimed cross-invocation deduplication. -/
theorem C9_gemini_recount_bug :
    (geminiCountToolResults [⟨some [⟨some ⟨some "f"⟩⟩, ⟨some ⟨some "f"⟩⟩]⟩]
      ⟨[], 0, false⟩).1.seenToolResultIds = ["gemini:f:0", "gemini:f:1"] ∧
    (geminiCountToolResults [⟨some [⟨some ⟨some "f"⟩⟩, ⟨some ⟨some "f"⟩⟩]⟩]
      ⟨[], 0, false⟩).2 = 2 ∧
    (geminiCountToolResults [⟨some [⟨some ⟨some "f"⟩⟩, ⟨some ⟨some "f"⟩⟩]⟩]
      ⟨[], 0, false⟩).1.toolResultCount = 2 ∧
    (geminiCountToolResults [⟨some [⟨some ⟨some "f"⟩⟩, ⟨some ⟨some "f"⟩⟩]⟩]
      (geminiCountToolResults [⟨some [⟨some ⟨some "f"⟩⟩, ⟨some ⟨some "f"⟩⟩]⟩]
        ⟨[], 0, false⟩).1).2 = 2 ∧
    (geminiCountToolResults [⟨some [⟨some ⟨some "f"⟩⟩, ⟨some ⟨some "f"⟩⟩]⟩]
      (geminiCountToolResults [⟨some [⟨some ⟨some "f"⟩⟩, ⟨some ⟨some "f"⟩⟩]⟩]
        ⟨[], 0, false⟩).1).1.toolResultCount = 4 := by
  refine ⟨by decide, by decide, by decide, by decide, by decide⟩

/-! ## Subagent detection (isSubagentSession) -/

/-- The session record returned by the host's `session.get`: only the
optional `parentID` matters here. -/
structure SessionData where
  parentID : Option String
deriving DecidableEq, Repr

/-- Models JS truthiness of an optional string (`!!result.data?.parentID`):
absent and empty strings are falsy. -/
def jsTruthyStr (o : Option String) : Bool :=
  match o with
  | some s => !(s == "")
  | none => false

/-- Models `isSubagentSession`: a thrown host lookup is caught and yields
`false` (fail open); otherwise the session is a subagent exactly when the
lookup's `data` carries a truthy `parentID`. -/
def isSubagentSession (lookup : Except String (Option SessionData)) : Bool :=
  match lookup with
  | .error _ => false
  | .ok d =>
    match d with
    | some sd => jsTruthyStr sd.parentID
    | none => false

/-- Models the guard shared by the idle event hook and the chat.params hook:
pruning work proceeds exactly when the session is not detected as a
subagent. -/
def pruningProceeds (lookup : Except String (Option SessionData)) : Bool :=
  !(isSubagentSession lookup)

/-- C10. If the host's session lookup throws, `isSubagentSession` returns
`false`, so idle-triggered analysis and request rewriting proceed (fail
open); and a session is treated as a subagent exactly when the lookup
succeeds with a record whose parent reference is present and non-empty. -/
theorem C10_subagent_fail_open :
    (∀ e : String, isSubagentSession (.error e) = false ∧
      pruningProceeds (.error e) = true) ∧
    (∀ lookup : Except String (Option SessionData),
      isSubagentSession lookup = true ↔
        ∃ (d : SessionData) (p : String), lookup = .ok (some d) ∧
          d.parentID = some p ∧ p ≠ "") := by
  constructor
  · intro e
    exact ⟨rfl, rfl⟩
  · intro lookup
    cases lookup with
    | error e =>
      simp only [isSubagentSession]
      constructor
      · intro h
        cases h
      · rintro ⟨d, p, h, _⟩
        cases h
    | ok d =>
      cases d with
      | none =>
        simp only [isSubagentSession]
        constructor
        · intro h
          cases h
        · rintro ⟨d', p, h, _⟩
          cases h
      | some sd =>
        simp only [isSubagentSession]
        cases hp : sd.parentID with
        | none =>
          simp only [jsTruthyStr]
          constructor
          · intro h
            cases h
          · rintro ⟨d', p, hd, hpid, hne⟩
            cases hd
            rw [hp] at hpid
            cases hpid
        | some p =>
          simp only [jsTruthyStr]
          constructor
          · intro h
            refine ⟨sd, p, rfl, hp, ?_⟩
            intro he
            subst he
            simp at h
          · rintro ⟨d', p', hd, hpid, hne⟩
            cases hd
            rw [hp] at hpid
            cases hpid
            simpa using hne

/-- Concrete instantiation of `C10_subagent_fail_open`: a successful lookup
with non-empty parent id is detected as a subagent. -/
theorem C10_subagent_fail_open_witness :
    isSubagentSession (.ok (some ⟨some "parent_1"⟩)) = true :=
  (C10_subagent_fail_open.2 (.ok (some ⟨some "parent_1"⟩))).mpr
    ⟨⟨some "parent_1"⟩, "parent_1", rfl, rfl, by decide⟩
